import Mathlib

/-!
# Verification of `dwarfdump/esb.c` — the extensible string buffer

Shallow embedding of `src/dwarfdump/esb.c`.  Memory bytes are modelled as
natural numbers (0 is the NUL terminator).  The backing store of a buffer
is a `List Byte` whose length is the allocated size (`esb_allocated_size`
and the malloc'd block size are always kept equal by the C code, so the
model carries the list only and derives the size from it).  Freshly
allocated (uninitialised) bytes are modelled by a fixed junk byte 170,
mirroring that `malloc`/`realloc` give indeterminate contents.

The process-wide mutable `alloc_size` global (`INITIAL_ALLOC`, settable by
`esb_alloc_size`) is threaded through every operation as a parameter `q`.

Sizes are `size_t` in C; they are modelled as `Nat`.  The inputs reachable
in practice (strings that exist in memory) keep every size computation far
below `2^64`, so no wraparound is modelled.
-/

namespace Esb

/-- A memory byte; 0 is the NUL terminator. -/
abbrev Byte := Nat

/-- The junk value filling freshly allocated, not-yet-written bytes. -/
def junkByte : Byte := 170

/-- A run of `n` uninitialised bytes as delivered by `malloc`. -/
def junkList (n : Nat) : List Byte := List.replicate n junkByte

/-- `struct esb_s`: the backing store (whose length is the allocated
size) and the count of used content bytes. -/
structure esb_s where
  esb_string : List Byte
  esb_used_bytes : Nat
deriving Repr, DecidableEq

/-- `esb_get_allocated_size` / the `esb_allocated_size` field: the C code
keeps it equal to the size of the malloc'd block, i.e. the store length. -/
def esb_allocated_size (d : esb_s) : Nat := d.esb_string.length

/-- `strlen`: index of the first NUL byte (list length when absent —
a C string always carries its terminator, so well-formed inputs have one). -/
def strlenBytes : List Byte → Nat
  | [] => 0
  | b :: bs => if b = 0 then 0 else strlenBytes bs + 1

/-- The `n` bytes that `strncpy(dst, src, n)` writes: bytes of `src` up to
its first NUL, then NUL padding.  (Reading past the end of `src` is UB in
C; the model pads with zeros there, and every caller in `esb.c` stays in
bounds.) -/
def strncpyBytes : List Byte → Nat → List Byte
  | _, 0 => []
  | [], n + 1 => List.replicate (n + 1) 0
  | b :: bs, n + 1 => if b = 0 then List.replicate (n + 1) 0
      else b :: strncpyBytes bs n

/-- Write the bytes `bs` into store `s` starting at index `pos`
(out-of-range writes vanish, as `List.set` ignores them; the proofs show
all writes of `esb.c` are in range on valid states). -/
def writeBytesFrom (s : List Byte) (pos : Nat) : List Byte → List Byte
  | [] => s
  | b :: bs => writeBytesFrom (s.set pos b) (pos + 1) bs

/-- `realloc` to `n` bytes: the common prefix is preserved, any new tail
is uninitialised. -/
def reallocBytes (s : List Byte) (n : Nat) : List Byte :=
  s.take n ++ junkList (n - s.length)

/-- `esb_constructor`: zero the structure. -/
def esb_constructor : esb_s := { esb_string := [], esb_used_bytes := 0 }

/-- `init_esb_string(data, min_len)` with `alloc_size = q`. -/
def init_esb_string (q : Nat) (d : esb_s) (min_len : Nat) : esb_s :=
  if 0 < esb_allocated_size d then d
  else
    let m := if min_len ≤ q then q + 1 else min_len + 1
    { esb_string := (junkList m).set 0 0, esb_used_bytes := 0 }

/-- `esb_allocate_more(data, len)` with `alloc_size = q`. -/
def esb_allocate_more (q : Nat) (d : esb_s) (len : Nat) : esb_s :=
  let new_size0 := esb_allocated_size d + len
  let new_size := if new_size0 < q then q else new_size0
  { esb_string := reallocBytes d.esb_string new_size,
    esb_used_bytes := d.esb_used_bytes }

/-- `esb_force_allocation(data, minlen)`. -/
def esb_force_allocation (q : Nat) (d : esb_s) (minlen : Nat) : esb_s :=
  if esb_allocated_size d < minlen then
    esb_allocate_more q d (minlen - esb_allocated_size d)
  else d

/-- The unconditional tail of `esb_appendn_internal`: `strncpy` the bytes
at offset `esb_used_bytes`, advance it by `len`, and write the explicit
NUL terminator (lines 202–205 of `esb.c`). -/
def commitAppend (X : esb_s) (s : List Byte) (len : Nat) : esb_s :=
  { esb_string := (writeBytesFrom X.esb_string X.esb_used_bytes
        (strncpyBytes s len)).set (X.esb_used_bytes + len) 0,
    esb_used_bytes := X.esb_used_bytes + len }

/-- `esb_appendn_internal(data, in_string, len)`: init if unallocated,
grow if the room left is not strictly larger than `len`, then commit. -/
def esb_appendn_internal (q : Nat) (d : esb_s) (s : List Byte)
    (len : Nat) : esb_s :=
  let d1 := if esb_allocated_size d = 0 then
      init_esb_string q d (if len ≥ q then len else q)
    else d
  let remaining := esb_allocated_size d1 - d1.esb_used_bytes
  let d2 := if remaining ≤ len then esb_allocate_more q d1 len else d1
  commitAppend d2 s len

/-- Whether `esb_appendn` prints its bad-length diagnostic to stderr. -/
def esb_appendn_diag (s : List Byte) (len : Nat) : Bool :=
  decide (strlenBytes s < len)

/-- `esb_appendn(data, in_string, len)`: clamp `len` to the true string
length when the caller over-claims, then delegate. -/
def esb_appendn (q : Nat) (d : esb_s) (s : List Byte) (len : Nat) : esb_s :=
  let full_len := strlenBytes s
  let len' := if full_len < len then full_len else len
  esb_appendn_internal q d s len'

/-- `esb_append(data, in_string)`: length discovered by `strlen`; the
input pointer may be NULL (`none`), in which case nothing happens. -/
def esb_append (q : Nat) (d : esb_s) (s : Option (List Byte)) : esb_s :=
  match s with
  | none => d
  | some str =>
    let len := strlenBytes str
    if len ≠ 0 then esb_appendn_internal q d str len else d

/-- `esb_get_string(data)`: lazily materialise, return the store
(the C function returns the pointer to the whole store). -/
def esb_get_string (q : Nat) (d : esb_s) : esb_s × List Byte :=
  let d1 := if esb_allocated_size d = 0 then init_esb_string q d q else d
  (d1, d1.esb_string)

/-- `esb_empty_string(data)`. -/
def esb_empty_string (q : Nat) (d : esb_s) : esb_s :=
  let d1 := if esb_allocated_size d = 0 then init_esb_string q d q else d
  { esb_string := d1.esb_string.set 0 0, esb_used_bytes := 0 }

/-- `esb_string_len(data)`. -/
def esb_string_len (d : esb_s) : Nat := d.esb_used_bytes

/-- The bytes `strcpy(dst, src)` places at `dst`: the content of `src`
up to and including its NUL terminator. -/
def strcpyResult (src : List Byte) : List Byte :=
  src.take (strlenBytes src) ++ [0]

/-- `esb_get_copy(data)`: `none` models the NULL result of an empty
buffer; otherwise a fresh `len+1`-byte block filled by `strcpy` from
`esb_get_string`. -/
def esb_get_copy (q : Nat) (d : esb_s) : esb_s × Option (List Byte) :=
  let len := esb_string_len d
  if len ≠ 0 then
    let gs := esb_get_string q d
    (gs.1, some (strcpyResult gs.2))
  else (d, none)

/-!
## Formatted append

`vsnprintf` is modelled by handing each call the expansion the
format/argument pair would produce: `some out` (a list of non-NUL output
bytes) for a successful format, `none` for a formatting error (the
negative return).  The measure phase (`vsnprintf` into the 512-byte
scratch, or the null device on Windows) returns the full expansion
length regardless of the scratch size, so the scratch buffer itself
needs no model.
-/

/-- The length the measure-phase `vsnprintf` reports: the full expansion
length, or -1 on a formatting error. -/
def measured_len (fmt : Option (List Byte)) : Int :=
  match fmt with
  | some out => (out.length : Int)
  | none => -1

/-- `esb_allocate_more_if_needed(data, in_string, ap)`: measure, then
`esb_force_allocation(data, netlen + 1)`. -/
def esb_allocate_more_if_needed (q : Nat) (d : esb_s)
    (fmt : Option (List Byte)) : esb_s :=
  let netlen := measured_len fmt
  esb_force_allocation q d (netlen + 1).toNat

/-- Commit-phase `vsnprintf(&s[pos], n, ...)`: writes at most `n - 1`
expansion bytes plus a NUL, returns the full expansion length (or -1 on
error, writing nothing). -/
def vsnprintfAt (storage : List Byte) (pos n : Nat)
    (fmt : Option (List Byte)) : List Byte × Int :=
  match fmt with
  | none => (storage, -1)
  | some out =>
    if n = 0 then (storage, (out.length : Int))
    else
      let k := min out.length (n - 1)
      let st := writeBytesFrom storage pos (out.take k)
      (st.set (pos + k) 0, (out.length : Int))

/-- `esb_append_printf_ap(data, in_string, ap)`. -/
def esb_append_printf_ap (q : Nat) (d : esb_s)
    (fmt : Option (List Byte)) : esb_s :=
  let d1 := esb_allocate_more_if_needed q d fmt
  let netlen := esb_allocated_size d1 - d1.esb_used_bytes
  let r := vsnprintfAt d1.esb_string d1.esb_used_bytes netlen fmt
  let expandedlen := r.2
  if expandedlen < 0 then d1
  else if (netlen : Int) < expandedlen then
    { esb_string := r.1, esb_used_bytes := d1.esb_used_bytes + netlen - 1 }
  else
    { esb_string := r.1,
      esb_used_bytes := d1.esb_used_bytes + expandedlen.toNat }

/-- The observable content of a buffer: its first `esb_used_bytes` store
bytes. -/
def content (d : esb_s) : List Byte := d.esb_string.take d.esb_used_bytes

/-- States every operation sequence preserves enough of for the append
machinery: either no content yet, or strictly within the store. -/
def Good (d : esb_s) : Prop :=
  d.esb_used_bytes = 0 ∨ d.esb_used_bytes < esb_allocated_size d

/-- The full §3 invariant of a materialised-or-fresh buffer: empty and
unallocated, or NUL-free content followed by the terminator. -/
def Inv (d : esb_s) : Prop :=
  (esb_allocated_size d = 0 ∧ d.esb_used_bytes = 0) ∨
  (d.esb_used_bytes < esb_allocated_size d ∧
    (∀ i, i < d.esb_used_bytes → d.esb_string.getD i 0 ≠ 0) ∧
    d.esb_string.getD d.esb_used_bytes 1 = 0)

instance (d : esb_s) : Decidable (Good d) := by
  unfold Good; infer_instance

instance (d : esb_s) : Decidable (Inv d) := by
  unfold Inv; infer_instance

/-! ## Call sequences

`AppendOp` are the calls of the concatenation property (§8 of the spec);
`EsbOp` covers every buffer-mutating or -reading public entry point other
than destruction, for the capacity-monotonicity property. -/

/-- One call of an append sequence: `esb_appendn` or `esb_append`. -/
inductive AppendOp where
  | appendn (s : List Byte) (len : Nat)
  | append (s : List Byte)
deriving Repr

/-- Run a sequence of append calls left to right. -/
def runAppends (q : Nat) : esb_s → List AppendOp → esb_s
  | d, [] => d
  | d, AppendOp.appendn s len :: ops =>
      runAppends q (esb_appendn q d s len) ops
  | d, AppendOp.append s :: ops =>
      runAppends q (esb_append q d (some s)) ops

/-- The number of content bytes one call appends. -/
def opLen : AppendOp → Nat
  | AppendOp.appendn _ len => len
  | AppendOp.append s => strlenBytes s

/-- The bytes one call appends. -/
def opPiece : AppendOp → List Byte
  | AppendOp.appendn s len => s.take len
  | AppendOp.append s => s.take (strlenBytes s)

/-- The input contract of the concatenation claim: NUL-terminated
strings, and a truthful (not over-claimed) length for `esb_appendn`. -/
def OpOk : AppendOp → Prop
  | AppendOp.appendn s len => len ≤ strlenBytes s ∧ strlenBytes s < s.length
  | AppendOp.append s => strlenBytes s < s.length

instance (op : AppendOp) : Decidable (OpOk op) := by
  cases op <;> (unfold OpOk; infer_instance)

/-- One call of the public interface (destruction excluded). -/
inductive EsbOp where
  | force (minlen : Nat)
  | appendn (s : List Byte) (len : Nat)
  | append (s : Option (List Byte))
  | appendPrintf (fmt : Option (List Byte))
  | empty
  | getString
  | getCopy
  | stringLen
deriving Repr

/-- The state after one public call. -/
def applyOp (q : Nat) (d : esb_s) : EsbOp → esb_s
  | EsbOp.force m => esb_force_allocation q d m
  | EsbOp.appendn s len => esb_appendn q d s len
  | EsbOp.append s => esb_append q d s
  | EsbOp.appendPrintf f => esb_append_printf_ap q d f
  | EsbOp.empty => esb_empty_string q d
  | EsbOp.getString => (esb_get_string q d).1
  | EsbOp.getCopy => (esb_get_copy q d).1
  | EsbOp.stringLen => d

/-- Run a sequence of public calls left to right. -/
def runOps (q : Nat) : esb_s → List EsbOp → esb_s
  | d, [] => d
  | d, op :: ops => runOps q (applyOp q d op) ops

/-! ## Basic lemmas about the memory primitives -/

theorem length_junkList (n : Nat) : (junkList n).length = n := by
  simp [junkList]

theorem length_reallocBytes (s : List Byte) (n : Nat) :
    (reallocBytes s n).length = n := by
  simp [reallocBytes, length_junkList]
  omega

theorem take_reallocBytes (s : List Byte) (n k : Nat)
    (h : k ≤ s.length) (h2 : k ≤ n) :
    (reallocBytes s n).take k = s.take k := by
  unfold reallocBytes
  rw [List.take_append_eq_append_take, List.take_take]
  have hlen : (s.take n).length = min n s.length := List.length_take n s
  have h0 : k - (s.take n).length = 0 := by omega
  have h1 : min k n = k := by omega
  rw [h0, h1]
  simp

theorem length_strncpyBytes (s : List Byte) (n : Nat) :
    (strncpyBytes s n).length = n := by
  induction s generalizing n with
  | nil => cases n <;> simp [strncpyBytes]
  | cons b bs ih =>
    cases n with
    | zero => simp [strncpyBytes]
    | succ m =>
      by_cases hb : b = 0 <;> simp [strncpyBytes, hb, ih]

theorem strlenBytes_le_length (s : List Byte) :
    strlenBytes s ≤ s.length := by
  induction s with
  | nil => simp [strlenBytes]
  | cons b bs ih =>
    by_cases hb : b = 0
    · simp [strlenBytes, hb]
    · simp [strlenBytes, hb]
      omega

theorem strncpyBytes_of_le (s : List Byte) (n : Nat)
    (h : n ≤ strlenBytes s) : strncpyBytes s n = s.take n := by
  induction s generalizing n with
  | nil =>
    have : n = 0 := by simpa [strlenBytes] using h
    simp [this, strncpyBytes]
  | cons b bs ih =>
    cases n with
    | zero => simp [strncpyBytes]
    | succ m =>
      have hb : ¬ b = 0 := by
        intro hb0
        simp [strlenBytes, hb0] at h
      simp only [strncpyBytes, if_neg hb, List.take_succ_cons]
      have hm : m ≤ strlenBytes bs := by
        simp [strlenBytes, hb] at h
        omega
      rw [ih m hm]

theorem length_writeBytesFrom (bs : List Byte) (s : List Byte) (pos : Nat) :
    (writeBytesFrom s pos bs).length = s.length := by
  induction bs generalizing s pos with
  | nil => simp [writeBytesFrom]
  | cons b rest ih => simp [writeBytesFrom, ih]

theorem take_set_le {α : Type _} (l : List α) (m n : Nat) (a : α)
    (h : m ≤ n) : (l.set n a).take m = l.take m := by
  induction l generalizing m n with
  | nil => simp
  | cons x xs ih =>
    cases n with
    | zero =>
      have : m = 0 := Nat.le_zero.mp h
      simp [this]
    | succ k =>
      cases m with
      | zero => simp
      | succ j =>
        simp only [List.set_cons_succ, List.take_succ_cons]
        rw [ih j k (by omega)]

theorem getD_set_self {α : Type _} (l : List α) (n : Nat) (a dflt : α)
    (h : n < l.length) : (l.set n a).getD n dflt = a := by
  induction l generalizing n with
  | nil => simp at h
  | cons x xs ih =>
    cases n with
    | zero => simp [List.getD]
    | succ k =>
      simp only [List.set_cons_succ]
      have hk : k < xs.length := by simpa using h
      simpa [List.getD] using ih k hk

theorem take_succ_set {α : Type _} (l : List α) (n : Nat) (a : α)
    (h : n < l.length) : (l.set n a).take (n + 1) = l.take n ++ [a] := by
  induction l generalizing n with
  | nil => simp at h
  | cons x xs ih =>
    cases n with
    | zero => simp
    | succ k =>
      simp only [List.set_cons_succ, List.take_succ_cons, List.cons_append]
      rw [ih k (by simpa using h)]

theorem writeBytesFrom_take (bs : List Byte) (s : List Byte) (pos : Nat)
    (h : pos + bs.length ≤ s.length) :
    (writeBytesFrom s pos bs).take (pos + bs.length) = s.take pos ++ bs := by
  induction bs generalizing s pos with
  | nil => simp [writeBytesFrom]
  | cons b rest ih =>
    have hpos : pos < s.length := by simp at h; omega
    simp only [writeBytesFrom]
    have harith : pos + (b :: rest).length = (pos + 1) + rest.length := by
      simp; omega
    rw [harith, ih (s.set pos b) (pos + 1) (by simp at h ⊢; omega)]
    rw [take_succ_set s pos b hpos]
    simp

/-! ## Allocation-size equations -/

theorem init_of_zero (q : Nat) (d : esb_s) (m : Nat)
    (h : esb_allocated_size d = 0) :
    esb_allocated_size (init_esb_string q d m) = max m q + 1 ∧
    (init_esb_string q d m).esb_used_bytes = 0 ∧
    (init_esb_string q d m).esb_string.getD 0 1 = 0 := by
  unfold init_esb_string
  rw [if_neg (by omega)]
  refine ⟨?_, rfl, ?_⟩
  · simp only [esb_allocated_size, List.length_set, length_junkList]
    split <;> omega
  · apply getD_set_self
    rw [length_junkList]
    split <;> omega

theorem allocate_more_used (q : Nat) (d : esb_s) (len : Nat) :
    (esb_allocate_more q d len).esb_used_bytes = d.esb_used_bytes := rfl

theorem allocate_more_string (q : Nat) (d : esb_s) (len : Nat) :
    (esb_allocate_more q d len).esb_string =
      reallocBytes d.esb_string (max (esb_allocated_size d + len) q) := by
  unfold esb_allocate_more
  dsimp only
  congr 1
  split <;> omega

theorem alloc_allocate_more (q : Nat) (d : esb_s) (len : Nat) :
    esb_allocated_size (esb_allocate_more q d len) =
      max (esb_allocated_size d + len) q := by
  have := allocate_more_string q d len
  unfold esb_allocated_size at *
  rw [this, length_reallocBytes]

theorem alloc_force_allocation (q : Nat) (d : esb_s) (m : Nat) :
    esb_allocated_size (esb_force_allocation q d m) =
      if esb_allocated_size d < m then max m q else esb_allocated_size d := by
  unfold esb_force_allocation
  split
  · rw [alloc_allocate_more]
    omega
  · rfl

theorem force_allocation_of_ge (q : Nat) (d : esb_s) (m : Nat)
    (h : ¬ esb_allocated_size d < m) : esb_force_allocation q d m = d := by
  unfold esb_force_allocation
  rw [if_neg h]

theorem force_allocation_used (q : Nat) (d : esb_s) (m : Nat) :
    (esb_force_allocation q d m).esb_used_bytes = d.esb_used_bytes := by
  unfold esb_force_allocation
  split
  · rfl
  · rfl

/-! ## The append primitive -/

theorem commitAppend_spec (X : esb_s) (u : Nat) (c s : List Byte)
    (len : Nat) (hu : X.esb_used_bytes = u)
    (htake : X.esb_string.take u = c)
    (hroom : u + len < X.esb_string.length)
    (hl : len ≤ strlenBytes s) :
    (commitAppend X s len).esb_used_bytes = u + len ∧
    content (commitAppend X s len) = c ++ s.take len ∧
    (commitAppend X s len).esb_used_bytes
        < esb_allocated_size (commitAppend X s len) ∧
    (commitAppend X s len).esb_string.getD (u + len) 1 = 0 := by
  have hplen : (strncpyBytes s len).length = len := length_strncpyBytes s len
  have hwlen : (writeBytesFrom X.esb_string X.esb_used_bytes
      (strncpyBytes s len)).length = X.esb_string.length :=
    length_writeBytesFrom _ X.esb_string X.esb_used_bytes
  have hslen : ((writeBytesFrom X.esb_string X.esb_used_bytes
        (strncpyBytes s len)).set (X.esb_used_bytes + len) 0).length
      = X.esb_string.length := by
    rw [List.length_set, hwlen]
  refine ⟨by simp [commitAppend, hu], ?_, ?_, ?_⟩
  · unfold content commitAppend
    dsimp only
    rw [hu, take_set_le _ _ _ _ (le_refl (u + len))]
    have hwt := writeBytesFrom_take (strncpyBytes s len) X.esb_string
        X.esb_used_bytes (by rw [hplen, hu]; omega)
    rw [hplen, hu] at hwt
    rw [hwt, htake, strncpyBytes_of_le s len hl]
  · unfold commitAppend esb_allocated_size
    dsimp only
    rw [hslen, hu]
    exact hroom
  · unfold commitAppend
    dsimp only
    rw [hu]
    apply getD_set_self
    rw [length_writeBytesFrom]
    exact hroom

theorem appendn_internal_spec (q : Nat) (d : esb_s) (s : List Byte)
    (len : Nat) (hg : Good d) (hl : len ≤ strlenBytes s) :
    esb_string_len (esb_appendn_internal q d s len)
        = esb_string_len d + len ∧
    content (esb_appendn_internal q d s len) = content d ++ s.take len ∧
    (esb_appendn_internal q d s len).esb_used_bytes
        < esb_allocated_size (esb_appendn_internal q d s len) ∧
    (esb_appendn_internal q d s len).esb_string.getD
        (esb_string_len d + len) 1 = 0 := by
  by_cases hz : esb_allocated_size d = 0
  · -- unallocated: init first, and Good forces emptiness
    have hu0 : d.esb_used_bytes = 0 := by
      rcases hg with h | h
      · exact h
      · omega
    have hinit := init_of_zero q d (if len ≥ q then len else q) hz
    have hmax : len < max (if len ≥ q then len else q) q + 1 := by
      split <;> omega
    have hcd : content d = [] := by
      unfold content
      rw [hu0, List.take_zero]
    by_cases hgrow : esb_allocated_size
          (init_esb_string q d (if len ≥ q then len else q))
        - (init_esb_string q d (if len ≥ q then len else q)).esb_used_bytes
        ≤ len
    · have hEq : esb_appendn_internal q d s len =
          commitAppend (esb_allocate_more q
            (init_esb_string q d (if len ≥ q then len else q)) len) s len := by
        unfold esb_appendn_internal
        dsimp only
        rw [if_pos hz, if_pos hgrow]
      rw [hEq]
      have hs := commitAppend_spec
        (esb_allocate_more q
          (init_esb_string q d (if len ≥ q then len else q)) len)
        d.esb_used_bytes (content d) s len
        (by rw [allocate_more_used, hinit.2.1, hu0])
        (by rw [hcd, hu0, List.take_zero])
        (by
          have h1 := alloc_allocate_more q
            (init_esb_string q d (if len ≥ q then len else q)) len
          have h2 := hinit.1
          unfold esb_allocated_size at h1 h2
          rw [h1]
          omega)
        hl
      exact ⟨hs.1, hs.2.1, hs.2.2.1, hs.2.2.2⟩
    · have hEq : esb_appendn_internal q d s len =
          commitAppend (init_esb_string q d (if len ≥ q then len else q))
            s len := by
        unfold esb_appendn_internal
        dsimp only
        rw [if_pos hz, if_neg hgrow]
      rw [hEq]
      have hroom : d.esb_used_bytes + len <
          (init_esb_string q d (if len ≥ q then len else q)).esb_string.length := by
        have h2 := hinit.1
        unfold esb_allocated_size at h2
        omega
      have hs := commitAppend_spec
        (init_esb_string q d (if len ≥ q then len else q))
        d.esb_used_bytes (content d) s len
        (by rw [hinit.2.1, hu0])
        (by rw [hcd, hu0, List.take_zero])
        hroom hl
      exact ⟨hs.1, hs.2.1, hs.2.2.1, hs.2.2.2⟩
  · -- already allocated: Good gives strictness
    have hlt : d.esb_used_bytes < esb_allocated_size d := by
      rcases hg with h | h
      · omega
      · exact h
    by_cases hgrow : esb_allocated_size d - d.esb_used_bytes ≤ len
    · have hEq : esb_appendn_internal q d s len =
          commitAppend (esb_allocate_more q d len) s len := by
        unfold esb_appendn_internal
        dsimp only
        rw [if_neg hz, if_pos hgrow]
      rw [hEq]
      have hs := commitAppend_spec (esb_allocate_more q d len)
        d.esb_used_bytes (content d) s len
        (allocate_more_used q d len)
        (by
          rw [allocate_more_string]
          exact take_reallocBytes d.esb_string _ d.esb_used_bytes
            (by unfold esb_allocated_size at hlt; omega)
            (by omega))
        (by
          have h1 := alloc_allocate_more q d len
          unfold esb_allocated_size at h1 hlt
          rw [h1]
          omega)
        hl
      exact ⟨hs.1, hs.2.1, hs.2.2.1, hs.2.2.2⟩
    · have hEq : esb_appendn_internal q d s len =
          commitAppend d s len := by
        unfold esb_appendn_internal
        dsimp only
        rw [if_neg hz, if_neg hgrow]
      rw [hEq]
      have hs := commitAppend_spec d d.esb_used_bytes (content d) s len
        rfl rfl
        (by unfold esb_allocated_size at hgrow; omega)
        hl
      exact ⟨hs.1, hs.2.1, hs.2.2.1, hs.2.2.2⟩

theorem appendn_spec (q : Nat) (d : esb_s) (s : List Byte) (len : Nat)
    (hg : Good d) (h : len ≤ strlenBytes s) :
    esb_string_len (esb_appendn q d s len) = esb_string_len d + len ∧
    content (esb_appendn q d s len) = content d ++ s.take len ∧
    Good (esb_appendn q d s len) := by
  have hEq : esb_appendn q d s len = esb_appendn_internal q d s len := by
    unfold esb_appendn
    dsimp only
    rw [if_neg (by omega)]
  rw [hEq]
  have hs := appendn_internal_spec q d s len hg h
  exact ⟨hs.1, hs.2.1, Or.inr hs.2.2.1⟩

theorem append_spec (q : Nat) (d : esb_s) (s : List Byte) (hg : Good d) :
    esb_string_len (esb_append q d (some s))
        = esb_string_len d + strlenBytes s ∧
    content (esb_append q d (some s))
        = content d ++ s.take (strlenBytes s) ∧
    Good (esb_append q d (some s)) := by
  by_cases h0 : strlenBytes s = 0
  · have hEq : esb_append q d (some s) = d := by
      unfold esb_append
      dsimp only
      rw [if_neg (by omega)]
    rw [hEq, h0]
    exact ⟨rfl, by simp, hg⟩
  · have hEq : esb_append q d (some s)
        = esb_appendn_internal q d s (strlenBytes s) := by
      unfold esb_append
      dsimp only
      rw [if_pos h0]
    rw [hEq]
    have hs := appendn_internal_spec q d s (strlenBytes s) hg (le_refl _)
    exact ⟨hs.1, hs.2.1, Or.inr hs.2.2.1⟩

theorem runAppends_spec (q : Nat) (ops : List AppendOp) (d : esb_s)
    (hg : Good d) (hok : ∀ op ∈ ops, OpOk op) :
    esb_string_len (runAppends q d ops)
        = esb_string_len d + (ops.map opLen).sum ∧
    content (runAppends q d ops)
        = content d ++ (ops.map opPiece).flatten ∧
    Good (runAppends q d ops) := by
  induction ops generalizing d with
  | nil =>
    refine ⟨by simp [runAppends], by simp [runAppends], hg⟩
  | cons op rest ih =>
    cases op with
    | appendn s len =>
      have hop : OpOk (AppendOp.appendn s len) :=
        hok _ (List.mem_cons_self _ _)
      have hstep := appendn_spec q d s len hg hop.1
      have hrest := ih (esb_appendn q d s len) hstep.2.2
        (fun op h => hok op (List.mem_cons_of_mem _ h))
      have hrun : runAppends q d (AppendOp.appendn s len :: rest)
          = runAppends q (esb_appendn q d s len) rest := rfl
      refine ⟨?_, ?_, by rw [hrun]; exact hrest.2.2⟩
      · rw [hrun, hrest.1, hstep.1]
        simp [opLen]
        omega
      · rw [hrun, hrest.2.1, hstep.2.1]
        simp [opPiece, List.append_assoc]
    | append s =>
      have hstep := append_spec q d s hg
      have hrest := ih (esb_append q d (some s)) hstep.2.2
        (fun op h => hok op (List.mem_cons_of_mem _ h))
      have hrun : runAppends q d (AppendOp.append s :: rest)
          = runAppends q (esb_append q d (some s)) rest := rfl
      refine ⟨?_, ?_, by rw [hrun]; exact hrest.2.2⟩
      · rw [hrun, hrest.1, hstep.1]
        simp [opLen]
        omega
      · rw [hrun, hrest.2.1, hstep.2.1]
        simp [opPiece, List.append_assoc]

/-! ## Capacity never shrinks -/

theorem alloc_le_init (q : Nat) (d : esb_s) (m : Nat) :
    esb_allocated_size d ≤ esb_allocated_size (init_esb_string q d m) := by
  unfold init_esb_string
  split
  · exact le_refl _
  · next h =>
    have hz : esb_allocated_size d = 0 := by omega
    rw [hz]
    exact Nat.zero_le _

theorem alloc_le_allocate_more (q : Nat) (d : esb_s) (len : Nat) :
    esb_allocated_size d
      ≤ esb_allocated_size (esb_allocate_more q d len) := by
  rw [alloc_allocate_more]
  omega

theorem alloc_le_force_allocation (q : Nat) (d : esb_s) (m : Nat) :
    esb_allocated_size d
      ≤ esb_allocated_size (esb_force_allocation q d m) := by
  rw [alloc_force_allocation]
  split <;> omega

theorem alloc_commitAppend (X : esb_s) (s : List Byte) (len : Nat) :
    esb_allocated_size (commitAppend X s len) = esb_allocated_size X := by
  unfold commitAppend esb_allocated_size
  dsimp only
  rw [List.length_set, length_writeBytesFrom]

theorem alloc_le_appendn_internal (q : Nat) (d : esb_s) (s : List Byte)
    (len : Nat) :
    esb_allocated_size d
      ≤ esb_allocated_size (esb_appendn_internal q d s len) := by
  unfold esb_appendn_internal
  dsimp only
  rw [alloc_commitAppend]
  set D1 := if esb_allocated_size d = 0 then
      init_esb_string q d (if len ≥ q then len else q)
    else d with hD1
  have h1 : esb_allocated_size d ≤ esb_allocated_size D1 := by
    rw [hD1]
    split
    · exact alloc_le_init q d _
    · exact le_refl _
  refine le_trans h1 ?_
  split
  · exact alloc_le_allocate_more q D1 len
  · exact le_refl _

theorem alloc_le_appendn (q : Nat) (d : esb_s) (s : List Byte) (len : Nat) :
    esb_allocated_size d ≤ esb_allocated_size (esb_appendn q d s len) := by
  unfold esb_appendn
  dsimp only
  exact alloc_le_appendn_internal q d s _

theorem alloc_le_append (q : Nat) (d : esb_s) (s : Option (List Byte)) :
    esb_allocated_size d ≤ esb_allocated_size (esb_append q d s) := by
  cases s with
  | none => exact le_refl _
  | some str =>
    unfold esb_append
    dsimp only
    split
    · exact alloc_le_appendn_internal q d str _
    · exact le_refl _

theorem vsnprintfAt_length (st : List Byte) (pos n : Nat)
    (fmt : Option (List Byte)) :
    (vsnprintfAt st pos n fmt).1.length = st.length := by
  cases fmt with
  | none => rfl
  | some out =>
    unfold vsnprintfAt
    dsimp only
    split
    · rfl
    · dsimp only
      rw [List.length_set, length_writeBytesFrom]

theorem alloc_le_printf (q : Nat) (d : esb_s) (fmt : Option (List Byte)) :
    esb_allocated_size d
      ≤ esb_allocated_size (esb_append_printf_ap q d fmt) := by
  unfold esb_append_printf_ap esb_allocate_more_if_needed
  dsimp only
  set D1 := esb_force_allocation q d (measured_len fmt + 1).toNat with hD1
  have h1 : esb_allocated_size d ≤ esb_allocated_size D1 := by
    rw [hD1]
    exact alloc_le_force_allocation q d _
  have h2 : esb_allocated_size d ≤
      ((vsnprintfAt D1.esb_string D1.esb_used_bytes
        (esb_allocated_size D1 - D1.esb_used_bytes) fmt).1).length := by
    rw [vsnprintfAt_length]
    exact h1
  split
  · exact h1
  · split
    · exact h2
    · exact h2

theorem alloc_le_empty (q : Nat) (d : esb_s) :
    esb_allocated_size d
      ≤ esb_allocated_size (esb_empty_string q d) := by
  unfold esb_empty_string
  dsimp only
  unfold esb_allocated_size
  rw [List.length_set]
  split
  · exact alloc_le_init q d q
  · exact le_refl _

theorem alloc_le_get_string (q : Nat) (d : esb_s) :
    esb_allocated_size d
      ≤ esb_allocated_size (esb_get_string q d).1 := by
  unfold esb_get_string
  dsimp only
  split
  · exact alloc_le_init q d q
  · exact le_refl _

theorem alloc_le_get_copy (q : Nat) (d : esb_s) :
    esb_allocated_size d
      ≤ esb_allocated_size (esb_get_copy q d).1 := by
  unfold esb_get_copy
  dsimp only
  split
  · exact alloc_le_get_string q d
  · exact le_refl _

theorem alloc_le_applyOp (q : Nat) (d : esb_s) (op : EsbOp) :
    esb_allocated_size d ≤ esb_allocated_size (applyOp q d op) := by
  cases op with
  | force m => exact alloc_le_force_allocation q d m
  | appendn s len => exact alloc_le_appendn q d s len
  | append s => exact alloc_le_append q d s
  | appendPrintf f => exact alloc_le_printf q d f
  | empty => exact alloc_le_empty q d
  | getString => exact alloc_le_get_string q d
  | getCopy => exact alloc_le_get_copy q d
  | stringLen => exact le_refl _

theorem alloc_le_runOps (q : Nat) (ops : List EsbOp) (d : esb_s) :
    esb_allocated_size d ≤ esb_allocated_size (runOps q d ops) := by
  induction ops generalizing d with
  | nil => exact le_refl _
  | cons op rest ih =>
    exact le_trans (alloc_le_applyOp q d op) (ih (applyOp q d op))

theorem strlen_eq_of (s : List Byte) (k : Nat) (hk : k < s.length)
    (hnz : ∀ i, i < k → s.getD i 0 ≠ 0) (h0 : s.getD k 1 = 0) :
    strlenBytes s = k := by
  induction s generalizing k with
  | nil => simp at hk
  | cons b bs ih =>
    cases k with
    | zero =>
      have hb : b = 0 := by simpa [List.getD] using h0
      simp [strlenBytes, hb]
    | succ m =>
      have hb : b ≠ 0 := by
        have := hnz 0 (by omega)
        simpa [List.getD] using this
      have hrec : strlenBytes bs = m := by
        apply ih m (by simpa using hk)
        · intro i hi
          have := hnz (i + 1) (by omega)
          simpa [List.getD] using this
        · simpa [List.getD] using h0
      simp [strlenBytes, hb, hrec]

/-! ## The claims -/

/-- C1: the spec's commit phase requires forcing the capacity to at least
`length + measured_len + 1` before rendering, but the code's
`esb_allocate_more_if_needed` calls `esb_force_allocation(data, netlen+1)`
— only `measured_len + 1`, ignoring `esb_used_bytes` — contradicting its
own comment "Allocate enough space to hold the full text".  Concretely
(growth quantum 1, the selftest configuration): a buffer holding "ab"
(length 2) then a formatted append expanding to "cde" (measured length 3):
the claim requires capacity ≥ 2 + 3 + 1 = 6 before the render, but the
code leaves capacity 4 and the render truncates the result to "abc"
(length 3 instead of 5). -/
theorem printf_commit_capacity_ignores_length :
    esb_allocated_size (esb_allocate_more_if_needed 1
        (esb_append 1 esb_constructor (some [97, 98, 0]))
        (some [99, 100, 101])) = 4 ∧
    ¬ (esb_string_len (esb_append 1 esb_constructor (some [97, 98, 0]))
        + 3 + 1
      ≤ esb_allocated_size (esb_allocate_more_if_needed 1
          (esb_append 1 esb_constructor (some [97, 98, 0]))
          (some [99, 100, 101]))) ∧
    (esb_append_printf_ap 1
        (esb_append 1 esb_constructor (some [97, 98, 0]))
        (some [99, 100, 101])).esb_string = [97, 98, 99, 0] ∧
    esb_string_len (esb_append_printf_ap 1
        (esb_append 1 esb_constructor (some [97, 98, 0]))
        (some [99, 100, 101])) = 3 := by
  decide

/-- C2: the claimed invariant `length < capacity ∧ storage[length] = 0`
after every public operation is broken by `esb_append_printf_ap` when the
render's full length equals exactly the room left (`expandedlen = netlen`):
with growth quantum 1, after appending "a" (length 1, capacity 2) a
formatted append expanding to "bc" forces capacity 3, renders one byte
plus NUL, yet advances the length by the full 2, leaving
`length = capacity = 3` with no terminator slot — also contradicting the
code's own `ASSERT: esb_allocated_size > esb_used_bytes`. -/
theorem printf_breaks_terminator_invariant :
    0 < esb_allocated_size (esb_append_printf_ap 1
        (esb_append 1 esb_constructor (some [97, 0])) (some [98, 99])) ∧
    ¬ (esb_string_len (esb_append_printf_ap 1
          (esb_append 1 esb_constructor (some [97, 0])) (some [98, 99]))
      < esb_allocated_size (esb_append_printf_ap 1
          (esb_append 1 esb_constructor (some [97, 0])) (some [98, 99]))) := by
  decide

/-- C3 counterexample: with growth quantum 16 (the default
`INITIAL_ALLOC`) and a fresh buffer (capacity 0 < 5), forcing a minimum
of 5 yields capacity 16, not 5 — `esb_allocate_more` never produces a
block smaller than the quantum. -/
theorem force_allocation_quantum_counterexample :
    esb_allocated_size esb_constructor < 5 ∧
    esb_allocated_size (esb_force_allocation 16 esb_constructor 5) ≠ 5 := by
  decide

/-- C3 amended: if `capacity < min_total`, `esb_force_allocation` sets
the capacity to `max min_total growth_quantum` (the deficit, but never
below the quantum); if `capacity ≥ min_total` the buffer is unchanged. -/
theorem force_allocation_capacity (q : Nat) (d : esb_s) (minlen : Nat) :
    (esb_allocated_size d < minlen →
      esb_allocated_size (esb_force_allocation q d minlen)
        = max minlen q) ∧
    (¬ esb_allocated_size d < minlen →
      esb_force_allocation q d minlen = d) := by
  constructor
  · intro h
    rw [alloc_force_allocation, if_pos h]
  · intro h
    exact force_allocation_of_ge q d minlen h

/-- Witness for C3's amended claim: both branches at concrete inputs. -/
theorem force_allocation_capacity_witness :
    esb_allocated_size (esb_force_allocation 16 esb_constructor 5)
        = max 5 16 ∧
    esb_force_allocation 16 ⟨junkList 16, 0⟩ 5 = ⟨junkList 16, 0⟩ := by
  constructor
  · exact (force_allocation_capacity 16 esb_constructor 5).1 (by decide)
  · exact (force_allocation_capacity 16 ⟨junkList 16, 0⟩ 5).2 (by decide)

/-- C4: starting from a freshly constructed buffer, any finite sequence
of `esb_appendn` (truthful length) and `esb_append` calls on
NUL-terminated inputs yields a length equal to the sum of the appended
lengths and a content equal to the concatenation of the appended pieces
in call order. -/
theorem append_sequence_concat (q : Nat) (ops : List AppendOp)
    (hok : ∀ op ∈ ops, OpOk op) :
    esb_string_len (runAppends q esb_constructor ops)
        = (ops.map opLen).sum ∧
    content (runAppends q esb_constructor ops)
        = (ops.map opPiece).flatten := by
  have h := runAppends_spec q ops esb_constructor (Or.inl rfl) hok
  constructor
  · rw [h.1]
    exact Nat.zero_add _
  · rw [h.2.1]
    exact List.nil_append _

/-- Witness for C4: append "ab" (by `esb_append`) then one byte of "cd"
(by `esb_appendn`), giving length 3 and content "abc". -/
theorem append_sequence_concat_witness :
    esb_string_len (runAppends 1 esb_constructor
        [AppendOp.append [97, 98, 0], AppendOp.appendn [99, 100, 0, 7] 1])
      = 3 ∧
    content (runAppends 1 esb_constructor
        [AppendOp.append [97, 98, 0], AppendOp.appendn [99, 100, 0, 7] 1])
      = [97, 98, 99] := by
  have h := append_sequence_concat 1
      [AppendOp.append [97, 98, 0], AppendOp.appendn [99, 100, 0, 7] 1]
      (by decide)
  exact ⟨h.1.trans (by decide), h.2.trans (by decide)⟩

/-- C5: when the claimed length exceeds the true content length
`t = strlen(s)`, `esb_appendn` emits its diagnostic and appends exactly
the `t`-byte true prefix, leaving the buffer valid; with a truthful
claimed length it emits nothing and behaves exactly as the trusted
append of `len` bytes. -/
theorem appendn_clamps_to_true_length (q : Nat) (d : esb_s)
    (s : List Byte) (len : Nat) (hg : Good d) :
    (strlenBytes s < len →
      esb_appendn_diag s len = true ∧
      esb_appendn q d s len
          = esb_appendn_internal q d s (strlenBytes s) ∧
      esb_string_len (esb_appendn q d s len)
          = esb_string_len d + strlenBytes s ∧
      content (esb_appendn q d s len)
          = content d ++ s.take (strlenBytes s) ∧
      Good (esb_appendn q d s len)) ∧
    (len ≤ strlenBytes s →
      esb_appendn_diag s len = false ∧
      esb_appendn q d s len = esb_appendn_internal q d s len) := by
  constructor
  · intro h
    have hEq : esb_appendn q d s len
        = esb_appendn_internal q d s (strlenBytes s) := by
      unfold esb_appendn
      dsimp only
      rw [if_pos h]
    have hs := appendn_internal_spec q d s (strlenBytes s) hg (le_refl _)
    refine ⟨by simp [esb_appendn_diag, h], hEq, ?_, ?_, ?_⟩
    · rw [hEq]
      exact hs.1
    · rw [hEq]
      exact hs.2.1
    · rw [hEq]
      exact Or.inr hs.2.2.1
  · intro h
    refine ⟨?_, ?_⟩
    · simp [esb_appendn_diag]
      omega
    · unfold esb_appendn
      dsimp only
      rw [if_neg (by omega)]

/-- Witness for C5: the selftest's `oddarray` with over-claimed length 6
(true length 2), appended to a fresh buffer with quantum 1. -/
theorem appendn_clamps_witness :
    esb_appendn_diag [97, 98, 0, 99, 99, 100, 0] 6 = true ∧
    esb_appendn 1 esb_constructor [97, 98, 0, 99, 99, 100, 0] 6
      = esb_appendn_internal 1 esb_constructor [97, 98, 0, 99, 99, 100, 0]
          (strlenBytes [97, 98, 0, 99, 99, 100, 0]) ∧
    esb_string_len
        (esb_appendn 1 esb_constructor [97, 98, 0, 99, 99, 100, 0] 6)
      = esb_string_len esb_constructor
        + strlenBytes [97, 98, 0, 99, 99, 100, 0] ∧
    content (esb_appendn 1 esb_constructor [97, 98, 0, 99, 99, 100, 0] 6)
      = content esb_constructor
        ++ [97, 98, 0, 99, 99, 100, 0].take
            (strlenBytes [97, 98, 0, 99, 99, 100, 0]) ∧
    Good (esb_appendn 1 esb_constructor [97, 98, 0, 99, 99, 100, 0] 6) :=
  (appendn_clamps_to_true_length 1 esb_constructor
    [97, 98, 0, 99, 99, 100, 0] 6 (by decide)).1 (by decide)

/-- C6: when the commit-phase render reports a negative output length
(formatting error, modelled by the `none` format), `esb_append_printf_ap`
leaves the buffer completely unchanged: no length advance, no bytes
committed.  (The measure phase then reports -1 as well, so
`esb_force_allocation(data, 0)` does not touch the capacity either.) -/
theorem printf_error_is_noop (q : Nat) (d : esb_s) :
    esb_append_printf_ap q d none = d := by
  have h0 : (measured_len none + 1).toNat = 0 := by decide
  unfold esb_append_printf_ap esb_allocate_more_if_needed
  dsimp only
  rw [h0, force_allocation_of_ge q d 0 (by omega)]
  have hv : vsnprintfAt d.esb_string d.esb_used_bytes
      (esb_allocated_size d - d.esb_used_bytes) none
      = (d.esb_string, -1) := rfl
  rw [hv, if_pos (by norm_num)]

/-- C7: capacity is monotonically non-decreasing: it does not shrink
across any single public operation, nor across any finite sequence of
public operations on one buffer. -/
theorem capacity_monotone (q : Nat) (d : esb_s) (op : EsbOp)
    (ops : List EsbOp) :
    esb_allocated_size d ≤ esb_allocated_size (applyOp q d op) ∧
    esb_allocated_size d ≤ esb_allocated_size (runOps q d ops) :=
  ⟨alloc_le_applyOp q d op, alloc_le_runOps q ops d⟩

/-- C8: on a capacity-0 buffer, `init_esb_string` allocates exactly
`max min_len growth_quantum + 1` bytes, zeroes the length, and writes
the terminator at offset 0. -/
theorem init_capacity_exact (q : Nat) (d : esb_s) (min_len : Nat)
    (h : esb_allocated_size d = 0) :
    esb_allocated_size (init_esb_string q d min_len)
        = max min_len q + 1 ∧
    (init_esb_string q d min_len).esb_used_bytes = 0 ∧
    (init_esb_string q d min_len).esb_string.getD 0 1 = 0 :=
  init_of_zero q d min_len h

/-- Witness for C8: quantum 16, fresh buffer, requested minimum 5. -/
theorem init_capacity_exact_witness :
    esb_allocated_size (init_esb_string 16 esb_constructor 5)
        = max 5 16 + 1 ∧
    (init_esb_string 16 esb_constructor 5).esb_used_bytes = 0 ∧
    (init_esb_string 16 esb_constructor 5).esb_string.getD 0 1 = 0 :=
  init_capacity_exact 16 esb_constructor 5 (by decide)

/-- C9: on a buffer satisfying the §3 invariant, `esb_get_copy` returns
the absent result when the length is 0; on a non-empty buffer it leaves
the source unchanged and returns a copy of `length + 1` bytes equal to
the content followed by the terminator.  (The copy is a fresh value:
as the model is pure, later mutation of the source cannot alter it.) -/
theorem get_copy_spec (q : Nat) (d : esb_s) (hv : Inv d) :
    (esb_string_len d = 0 → (esb_get_copy q d).2 = none) ∧
    (0 < esb_string_len d →
      (esb_get_copy q d).1 = d ∧
      (esb_get_copy q d).2 = some (content d ++ [0]) ∧
      (content d ++ [0]).length = esb_string_len d + 1) := by
  constructor
  · intro h
    unfold esb_get_copy
    dsimp only
    rw [if_neg (by unfold esb_string_len at h ⊢; omega)]
  · intro hpos
    have hinv : d.esb_used_bytes < esb_allocated_size d ∧
        (∀ i, i < d.esb_used_bytes → d.esb_string.getD i 0 ≠ 0) ∧
        d.esb_string.getD d.esb_used_bytes 1 = 0 := by
      rcases hv with ⟨h1, h2⟩ | h
      · unfold esb_string_len at hpos
        omega
      · exact h
    have hgs : esb_get_string q d = (d, d.esb_string) := by
      unfold esb_get_string
      dsimp only
      rw [if_neg (by omega)]
    have hstrlen : strlenBytes d.esb_string = d.esb_used_bytes :=
      strlen_eq_of d.esb_string d.esb_used_bytes hinv.1 hinv.2.1 hinv.2.2
    have hcopy : esb_get_copy q d
        = (d, some (strcpyResult d.esb_string)) := by
      unfold esb_get_copy
      dsimp only
      rw [if_pos (by unfold esb_string_len at hpos ⊢; omega), hgs]
    rw [hcopy]
    refine ⟨rfl, ?_, ?_⟩
    · dsimp only
      unfold strcpyResult content
      rw [hstrlen]
    · unfold content esb_string_len
      simp
      unfold esb_allocated_size at hinv
      omega

/-- Witness for C9: the buffer holding "ab" with capacity 3. -/
theorem get_copy_spec_witness :
    (esb_get_copy 1 ⟨[97, 98, 0], 2⟩).1 = ⟨[97, 98, 0], 2⟩ ∧
    (esb_get_copy 1 ⟨[97, 98, 0], 2⟩).2
        = some (content ⟨[97, 98, 0], 2⟩ ++ [0]) ∧
    (content ⟨[97, 98, 0], 2⟩ ++ [0]).length
        = esb_string_len ⟨[97, 98, 0], 2⟩ + 1 :=
  (get_copy_spec 1 ⟨[97, 98, 0], 2⟩ (by decide)).2 (by decide)

/-- C10: `esb_append` called with an absent (NULL) input pointer is a
total no-op: the state — length, capacity and content — is returned
unchanged, even though the module otherwise assumes non-NULL pointers. -/
theorem append_null_noop (q : Nat) (d : esb_s) :
    esb_append q d none = d := rfl

end Esb
